import Mathlib

/-!
Verification of the multi-query retrieval-augmented QA notebook
(`lab-chatbot-with-multi-query-retriever.ipynb`).

The notebook's own Python code is `metadata_func` and `_combine_documents`
(together with the configuration of the text splitter and the retriever);
the chunking, vector-store upsert and multi-query merge algorithms live in
external libraries and are therefore modelled here from the specification's
component contracts, as marked on each definition.
-/

set_option maxHeartbeats 1000000

/-- Association-list lookup: the value of the first pair whose key is `k`.
This models lookup in a Python `dict` represented as a key-value list in
insertion order. -/
def lookupKey {α β : Type} [DecidableEq α] (k : α) : List (α × β) → Option β
  | [] => none
  | p :: rest => if p.1 = k then some p.2 else lookupKey k rest

/-- One Python `dict` assignment `m[k] = v`: overwrite the value of the first
pair whose key matches `k`, keeping its position, otherwise append the new
pair at the end (Python dict insertion order). -/
def upsertOne {α β : Type} [DecidableEq α] : List (α × β) → α × β → List (α × β)
  | [], p => [p]
  | q :: rest, p => if q.1 = p.1 then (q.1, p.2) :: rest else q :: upsertOne rest p

/-- Modelled from the spec: the Embedding Index operation
`upsert(passages) -> void` (the notebook delegates it to
`ElasticsearchStore.from_documents`, which is external).  Each passage's
vector is stored under its Passage identity; an identity that is already
present has its prior vector overwritten instead of a new entry being added. -/
def upsert {α β : Type} [DecidableEq α] (index : List (α × β))
    (passages : List (α × β)) : List (α × β) :=
  passages.foldl upsertOne index

/-- The keys of an association list, in order. -/
def keysOf {α β : Type} (l : List (α × β)) : List α := l.map Prod.fst

/-- The first of two options that is `some`, if any: `firstSome a b` is `a`
unless `a` is `none`, in which case it is `b`. -/
def firstSome {β : Type} (a b : Option β) : Option β :=
  match a with
  | some v => some v
  | none => b

/-- The notebook's `metadata_func`: copy every entry of `record` except the
`"content"` key into `metadata` (Python:
`for k, v in record.items(): if k != 'content': metadata[k] = v`), then
return `metadata`. -/
def metadata_func {β : Type} (record : List (String × β))
    (metadata : List (String × β)) : List (String × β) :=
  record.foldl (fun m kv => if kv.1 ≠ "content" then upsertOne m kv else m) metadata

/-- Fuel-indexed splitter core: emit windows of `size` tokens advancing by
`step` tokens until the remaining body fits into a single chunk.  The fuel is
always instantiated with the body length, which suffices whenever `step > 0`. -/
def chunkAux {α : Type} (size step : Nat) : Nat → List α → List (List α)
  | 0, _ => []
  | _ + 1, [] => []
  | fuel + 1, t :: rest =>
      if (t :: rest).length ≤ size then [t :: rest]
      else (t :: rest).take size :: chunkAux size step fuel ((t :: rest).drop step)

/-- Modelled from the spec: the Chunker (the notebook delegates splitting to
`RecursiveCharacterTextSplitter.from_tiktoken_encoder`, which is external).
A Document body, given as a sequence of tokens, is split into an ordered
sequence of Passages of at most `size` tokens each, consecutive Passages
overlapping by `ov` tokens; an empty body yields no Passages and raises no
error. -/
def chunker {α : Type} (size ov : Nat) (body : List α) : List (List α) :=
  chunkAux size (size - ov) body.length body

/-- The notebook's `text_splitter` configuration: chunk size 800 tokens with
an overlap of 400 tokens. -/
def text_splitter {α : Type} (body : List α) : List (List α) :=
  chunker 800 400 body

/-- The Chunker contract stated by the spec for a produced passage list `cs`:
every passage holds at most `size` tokens; every consecutive pair overlaps by
exactly `ov` tokens (the earlier passage is full and its last `ov` tokens are
the first `ov` tokens of the later one); and the passages cover the body in
order (the body is the first passage followed by every later passage with its
overlapping first `ov` tokens removed). -/
def chunkSpec {α : Type} (size ov : Nat) (body : List α) (cs : List (List α)) : Prop :=
  (∀ c ∈ cs, c.length ≤ size) ∧
  List.Chain' (fun c₁ c₂ => c₁.length = size ∧ ov ≤ c₂.length ∧
    c₁.drop (size - ov) = c₂.take ov) cs ∧
  (cs = [] → body = []) ∧
  (∀ c rest, cs = c :: rest → body = c ++ (rest.map (fun d => List.drop ov d)).flatten)

/-- Modelled from the spec: a Retrieval Result is a Passage identity together
with a relevance score (scores are modelled as integers). -/
structure RetrievalResult where
  passage : Nat
  score : Int
deriving DecidableEq

/-- The highest score attached to Passage identity `p` in `l`, starting from
the already-seen score `sc`. -/
def maxScoreFrom (p : Nat) (sc : Int) : List RetrievalResult → Int
  | [] => sc
  | s :: rest =>
      if s.passage = p then max s.score (maxScoreFrom p sc rest)
      else maxScoreFrom p sc rest

/-- Fuel-indexed dedup core: keep the first occurrence of every Passage
identity, carrying the highest score seen for it anywhere in the list, and
drop the later occurrences.  The fuel is always instantiated with the list
length, which suffices because the recursion filters a sublist. -/
def dedupAux : Nat → List RetrievalResult → List RetrievalResult
  | 0, _ => []
  | _ + 1, [] => []
  | fuel + 1, r :: rest =>
      ⟨r.passage, maxScoreFrom r.passage r.score rest⟩ ::
        dedupAux fuel (rest.filter fun s => s.passage ≠ r.passage)

/-- Modelled from the spec: deduplicate Retrieval Results by Passage
identity, keeping for every identity the highest score seen. -/
def dedupKeepHighest (l : List RetrievalResult) : List RetrievalResult :=
  dedupAux l.length l

/-- Insert a result into a list that is sorted by descending score, keeping
it sorted. -/
def insertDesc (r : RetrievalResult) : List RetrievalResult → List RetrievalResult
  | [] => [r]
  | s :: rest => if s.score ≤ r.score then r :: s :: rest else s :: insertDesc r rest

/-- Modelled from the spec: deliver results in descending score order. -/
def sortDesc (l : List RetrievalResult) : List RetrievalResult :=
  l.foldr insertDesc []

/-- Modelled from the spec: the Expanded Query Set is the original Query
followed by the generated variants; with zero usable variants it degrades to
the original Query alone. -/
def expandedQuerySet (original : String) (variants : List String) : List String :=
  original :: variants

/-- Modelled from the spec: the Retriever's multi-query fan-out (the notebook
delegates it to `MultiQueryRetriever.from_llm`, which is external).  Run
`search` for every Query of the Expanded Query Set, merge all Retrieval
Results, deduplicate by Passage identity keeping the highest score seen, and
deliver the merged set in descending score order. -/
def mergeResults (search : String → List RetrievalResult)
    (queries : List String) : List RetrievalResult :=
  sortDesc (dedupKeepHighest ((queries.map search).flatten))

/-- A retrieved document as the combining step sees it: a LangChain
`Document` with its `page_content` and the `name` metadata entry used by the
document prompt. -/
structure Doc where
  page_content : String
  name : String
deriving DecidableEq

/-- `format_document doc LLM_DOCUMENT_PROMPT`: the notebook's document prompt
template with the `name` and `page_content` slots substituted. -/
def format_document (d : Doc) : String :=
  "\n    ---\n    SOURCE: " ++ d.name ++ "\n    " ++ d.page_content ++ "\n    ---\n    "

/-- Python `sep.join(strings)`: concatenate the strings in order with `sep`
between consecutive elements. -/
def joinSep (sep : String) : List String → String
  | [] => ""
  | [s] => s
  | s :: rest => s ++ sep ++ joinSep sep rest

/-- The notebook's `_combine_documents`, with its default separator `"\n\n"`
passed explicitly: wrap every document with the document prompt and join the
results with the separator. -/
def _combine_documents (docs : List Doc) (document_separator : String) : String :=
  joinSep document_separator (docs.map format_document)

/-! ## Association-list lemmas -/

theorem lookupKey_upsertOne {α β : Type} [DecidableEq α] (m : List (α × β))
    (p : α × β) (k : α) :
    lookupKey k (upsertOne m p) = if p.1 = k then some p.2 else lookupKey k m := by
  obtain ⟨pk, pv⟩ := p
  induction m with
  | nil => simp [upsertOne, lookupKey]
  | cons q rest ih =>
      obtain ⟨qk, qv⟩ := q
      by_cases h : qk = pk
      · subst h
        by_cases hk : qk = k <;> simp [upsertOne, lookupKey, hk]
      · by_cases hk : qk = k
        · subst hk
          simp [upsertOne, lookupKey, h, Ne.symm h]
        · simp [upsertOne, lookupKey, h, hk, ih]

theorem lookupKey_append {α β : Type} [DecidableEq α] (l₁ l₂ : List (α × β)) (k : α) :
    lookupKey k (l₁ ++ l₂) = firstSome (lookupKey k l₁) (lookupKey k l₂) := by
  induction l₁ with
  | nil => simp [lookupKey, firstSome]
  | cons p rest ih =>
      by_cases h : p.1 = k <;> simp [lookupKey, h, ih, firstSome]

theorem firstSome_assoc {β : Type} (a b c : Option β) :
    firstSome (firstSome a b) c = firstSome a (firstSome b c) := by
  cases a <;> rfl

theorem firstSome_absorb {β : Type} (a b : Option β) :
    firstSome a (firstSome a b) = firstSome a b := by
  cases a <;> rfl

theorem upsert_cons {α β : Type} [DecidableEq α] (m : List (α × β)) (p : α × β)
    (ps : List (α × β)) : upsert m (p :: ps) = upsert (upsertOne m p) ps := rfl

theorem lookupKey_upsert {α β : Type} [DecidableEq α] (m ps : List (α × β)) (k : α) :
    lookupKey k (upsert m ps) = firstSome (lookupKey k ps.reverse) (lookupKey k m) := by
  induction ps generalizing m with
  | nil => simp [upsert, lookupKey, firstSome]
  | cons p rest ih =>
      rw [upsert_cons, ih, List.reverse_cons, lookupKey_append, lookupKey_upsertOne,
        firstSome_assoc]
      congr 1
      by_cases h : p.1 = k <;> simp [lookupKey, h, firstSome]

theorem mem_keysOf_upsertOne {α β : Type} [DecidableEq α] (m : List (α × β))
    (p : α × β) (k : α) :
    k ∈ keysOf (upsertOne m p) ↔ k ∈ keysOf m ∨ k = p.1 := by
  induction m with
  | nil => simp [upsertOne, keysOf, eq_comm]
  | cons q rest ih =>
      by_cases h : q.1 = p.1 <;> simp [upsertOne, h, keysOf, ih] <;>
        simp [keysOf] at ih ⊢ <;> tauto

theorem keysOf_upsertOne_of_mem {α β : Type} [DecidableEq α] (m : List (α × β))
    (p : α × β) (h : p.1 ∈ keysOf m) : keysOf (upsertOne m p) = keysOf m := by
  induction m with
  | nil => simp [keysOf] at h
  | cons q rest ih =>
      by_cases hq : q.1 = p.1
      · simp [upsertOne, hq, keysOf]
      · have h' : p.1 ∈ keysOf rest := by
          simp [keysOf] at h
          rcases h with h | h
          · exact absurd h.symm hq
          · simpa [keysOf] using h
        have h2 := ih h'
        simp only [keysOf] at h2
        simp only [upsertOne, if_neg hq, keysOf, List.map_cons, h2]

theorem nodup_keysOf_upsertOne {α β : Type} [DecidableEq α] (m : List (α × β))
    (p : α × β) (h : (keysOf m).Nodup) : (keysOf (upsertOne m p)).Nodup := by
  induction m with
  | nil => simp [upsertOne, keysOf]
  | cons q rest ih =>
      simp only [keysOf, List.map_cons, List.nodup_cons] at h
      by_cases hq : q.1 = p.1
      · simp only [upsertOne, if_pos hq, keysOf, List.map_cons, List.nodup_cons]
        exact ⟨h.1, h.2⟩
      · simp only [upsertOne, if_neg hq, keysOf, List.map_cons, List.nodup_cons]
        refine ⟨?_, ih h.2⟩
        intro hmem
        rcases (mem_keysOf_upsertOne rest p q.1).mp hmem with hc | hc
        · exact h.1 hc
        · exact hq hc

theorem mem_keysOf_upsert_of_mem_left {α β : Type} [DecidableEq α]
    (m ps : List (α × β)) (k : α) (h : k ∈ keysOf m) : k ∈ keysOf (upsert m ps) := by
  induction ps generalizing m with
  | nil => exact h
  | cons p rest ih =>
      rw [upsert_cons]
      exact ih _ ((mem_keysOf_upsertOne m p k).mpr (Or.inl h))

theorem mem_keysOf_upsert_of_mem {α β : Type} [DecidableEq α]
    (m ps : List (α × β)) (p : α × β) (hp : p ∈ ps) : p.1 ∈ keysOf (upsert m ps) := by
  induction ps generalizing m with
  | nil => cases hp
  | cons q rest ih =>
      rw [upsert_cons]
      rcases List.mem_cons.mp hp with rfl | hmem
      · exact mem_keysOf_upsert_of_mem_left _ _ _
          ((mem_keysOf_upsertOne m p p.1).mpr (Or.inr rfl))
      · exact ih _ hmem

theorem keysOf_upsert_of_subset {α β : Type} [DecidableEq α]
    (m ps : List (α × β)) (h : ∀ p ∈ ps, p.1 ∈ keysOf m) :
    keysOf (upsert m ps) = keysOf m := by
  induction ps generalizing m with
  | nil => rfl
  | cons p rest ih =>
      rw [upsert_cons]
      have hrest : ∀ q ∈ rest, q.1 ∈ keysOf (upsertOne m p) := fun q hq =>
        (mem_keysOf_upsertOne m p q.1).mpr (Or.inl (h q (List.mem_cons_of_mem p hq)))
      rw [ih _ hrest, keysOf_upsertOne_of_mem m p (h p (List.mem_cons_self p rest))]

theorem nodup_keysOf_upsert {α β : Type} [DecidableEq α]
    (m ps : List (α × β)) (h : (keysOf m).Nodup) : (keysOf (upsert m ps)).Nodup := by
  induction ps generalizing m with
  | nil => exact h
  | cons p rest ih =>
      rw [upsert_cons]
      exact ih _ (nodup_keysOf_upsertOne m p h)

theorem lookupKey_eq_none {α β : Type} [DecidableEq α] (m : List (α × β)) (k : α)
    (h : k ∉ keysOf m) : lookupKey k m = none := by
  induction m with
  | nil => rfl
  | cons p rest ih =>
      simp only [keysOf, List.map_cons, List.mem_cons, not_or] at h
      rw [lookupKey, if_neg (fun hc => h.1 (hc.symm))]
      exact ih (by simpa [keysOf] using h.2)

theorem alist_ext {α β : Type} [DecidableEq α] (m₁ m₂ : List (α × β))
    (h₁ : (keysOf m₁).Nodup) (hk : keysOf m₁ = keysOf m₂)
    (hl : ∀ k, lookupKey k m₁ = lookupKey k m₂) : m₁ = m₂ := by
  induction m₁ generalizing m₂ with
  | nil =>
      cases m₂ with
      | nil => rfl
      | cons q t => simp [keysOf] at hk
  | cons p t₁ ih =>
      cases m₂ with
      | nil => simp [keysOf] at hk
      | cons q t₂ =>
          simp only [keysOf, List.map_cons, List.cons.injEq] at hk
          obtain ⟨hpq, htk⟩ := hk
          simp only [keysOf, List.map_cons, List.nodup_cons] at h₁
          have hval : some p.2 = some q.2 := by
            have := hl p.1
            rwa [lookupKey, if_pos rfl, lookupKey, if_pos hpq.symm] at this
          have hpqfull : p = q := Prod.ext hpq (Option.some.inj hval)
          subst hpqfull
          have htails : t₁ = t₂ := by
            refine ih t₂ (by simpa [keysOf] using h₁.2) (by simpa [keysOf] using htk) ?_
            intro k
            by_cases hkp : k = p.1
            · subst hkp
              rw [lookupKey_eq_none t₁ p.1 (by simpa [keysOf] using h₁.1),
                lookupKey_eq_none t₂ p.1
                  (by simp only [keysOf]; rw [← htk]; simpa [keysOf] using h₁.1)]
            · have := hl k
              rwa [lookupKey, if_neg (fun hc => hkp hc.symm), lookupKey,
                if_neg (fun hc => hkp hc.symm)] at this
          rw [htails]

/-- C3: re-running `upsert` with an identical sequence of passages leaves the
index unchanged — the second pass overwrites every Passage identity with the
vector it already holds and adds no entry — and hence every subsequent search
over the index returns an unchanged result set, in membership and ranking. -/
theorem C3_upsert_idempotent {α β : Type} [DecidableEq α] (m ps : List (α × β))
    (hm : (keysOf m).Nodup) :
    upsert (upsert m ps) ps = upsert m ps ∧
    ∀ (γ : Type) (search : List (α × β) → String → γ) (q : String),
      search (upsert (upsert m ps) ps) q = search (upsert m ps) q := by
  have main : upsert (upsert m ps) ps = upsert m ps := by
    refine alist_ext _ _ ?_ ?_ ?_
    · exact nodup_keysOf_upsert _ _ (nodup_keysOf_upsert _ _ hm)
    · exact keysOf_upsert_of_subset _ _ (fun p hp => mem_keysOf_upsert_of_mem _ _ p hp)
    · intro k
      rw [lookupKey_upsert, lookupKey_upsert, firstSome_absorb]
  exact ⟨main, fun γ search q => by rw [main]⟩

/-- Witness for C3 at a concrete index and passage list. -/
theorem C3_upsert_idempotent_witness :
    (keysOf [((1 : Nat), (10 : Int))]).Nodup ∧
    upsert (upsert [((1 : Nat), (10 : Int))] [(1, 20), (2, 5)]) [(1, 20), (2, 5)] =
      upsert [((1 : Nat), (10 : Int))] [(1, 20), (2, 5)] :=
  ⟨by decide, (C3_upsert_idempotent [((1 : Nat), (10 : Int))] [(1, 20), (2, 5)]
    (by decide)).1⟩

/-! ## metadata_func lemmas -/

theorem metadata_func_eq_upsert {β : Type} (record metadata : List (String × β)) :
    metadata_func record metadata =
      upsert metadata (record.filter fun kv => kv.1 ≠ "content") := by
  induction record generalizing metadata with
  | nil => rfl
  | cons kv rest ih =>
      by_cases h : kv.1 = "content"
      · have h1 : metadata_func (kv :: rest) metadata = metadata_func rest metadata := by
          simp [metadata_func, h]
        rw [h1, ih]
        simp [List.filter_cons, h]
      · have h1 : metadata_func (kv :: rest) metadata =
            metadata_func rest (upsertOne metadata kv) := by
          simp [metadata_func, h]
        rw [h1, ih]
        simp [List.filter_cons, h, upsert_cons]

theorem lookupKey_reverse_of_mem {α β : Type} [DecidableEq α] (m : List (α × β))
    (h : (keysOf m).Nodup) (kv : α × β) (hm : kv ∈ m) :
    lookupKey kv.1 m.reverse = some kv.2 := by
  induction m with
  | nil => cases hm
  | cons p rest ih =>
      simp only [keysOf, List.map_cons, List.nodup_cons] at h
      rw [List.reverse_cons, lookupKey_append]
      rcases List.mem_cons.mp hm with rfl | hmem
      · rw [lookupKey_eq_none rest.reverse kv.1
          (by simpa [keysOf, List.map_reverse, List.mem_reverse] using h.1)]
        simp [firstSome, lookupKey]
      · rw [ih (by simpa [keysOf] using h.2) hmem]
        rfl

theorem not_mem_keysOf_filter_content {β : Type} (record : List (String × β)) :
    "content" ∉ keysOf (record.filter fun kv => kv.1 ≠ "content") := by
  intro hmem
  simp only [keysOf, List.mem_map] at hmem
  obtain ⟨kv, hkv, hfst⟩ := hmem
  have := (List.mem_filter.mp hkv).2
  rw [hfst] at this
  simp at this

/-- C9: `metadata_func` copies every non-`content` entry of the record into
the metadata mapping, adds nothing for the record's `content` key, and leaves
every pre-existing metadata entry whose key does not occur in the record
unchanged. -/
theorem C9_metadata_func_spec {β : Type} (record metadata : List (String × β))
    (hrec : (keysOf record).Nodup) :
    (∀ kv ∈ record, kv.1 ≠ "content" →
        lookupKey kv.1 (metadata_func record metadata) = some kv.2) ∧
    lookupKey "content" (metadata_func record metadata) =
      lookupKey "content" metadata ∧
    (∀ k, k ∉ keysOf record →
        lookupKey k (metadata_func record metadata) = lookupKey k metadata) := by
  have hsub : (keysOf (record.filter fun kv => kv.1 ≠ "content")).Sublist (keysOf record) :=
    (List.filter_sublist record).map Prod.fst
  have hFnodup : (keysOf (record.filter fun kv => kv.1 ≠ "content")).Nodup :=
    hsub.nodup hrec
  refine ⟨?_, ?_, ?_⟩
  · intro kv hkv hne
    rw [metadata_func_eq_upsert, lookupKey_upsert,
      lookupKey_reverse_of_mem _ hFnodup kv
        (List.mem_filter.mpr ⟨hkv, by simp [hne]⟩)]
    rfl
  · rw [metadata_func_eq_upsert, lookupKey_upsert,
      lookupKey_eq_none _ "content"
        (by
          intro hmem
          rw [keysOf, List.map_reverse, List.mem_reverse] at hmem
          exact not_mem_keysOf_filter_content record hmem)]
    rfl
  · intro k hk
    rw [metadata_func_eq_upsert, lookupKey_upsert,
      lookupKey_eq_none _ k ?_]
    · rfl
    · simp only [keysOf, List.map_reverse, List.mem_reverse]
      intro hmem
      exact hk (hsub.mem hmem)

/-- Witness for C9 at a concrete record and metadata mapping. -/
theorem C9_metadata_func_spec_witness :
    (keysOf [("name", "N"), ("content", "C")]).Nodup ∧
    ((∀ kv ∈ [("name", "N"), ("content", "C")], kv.1 ≠ "content" →
        lookupKey kv.1
          (metadata_func [("name", "N"), ("content", "C")] [("source", "S")]) =
          some kv.2) ∧
      lookupKey "content"
          (metadata_func [("name", "N"), ("content", "C")] [("source", "S")]) =
        lookupKey "content" [("source", "S")] ∧
      (∀ k, k ∉ keysOf [("name", "N"), ("content", "C")] →
        lookupKey k
            (metadata_func [("name", "N"), ("content", "C")] [("source", "S")]) =
          lookupKey k [("source", "S")])) :=
  ⟨by decide, C9_metadata_func_spec [("name", "N"), ("content", "C")]
    [("source", "S")] (by decide)⟩

/-! ## Chunker lemmas -/

theorem chunkAux_length_le {α : Type} (size step : Nat) :
    ∀ (fuel : Nat) (body : List α), ∀ c ∈ chunkAux size step fuel body,
      c.length ≤ size := by
  intro fuel
  induction fuel with
  | zero => intro body c hc; simp [chunkAux] at hc
  | succ fuel ih =>
      intro body c hc
      cases body with
      | nil => simp [chunkAux] at hc
      | cons t rest =>
          simp only [chunkAux] at hc
          by_cases h : (t :: rest).length ≤ size
          · rw [if_pos h] at hc
            simp only [List.mem_singleton] at hc
            subst hc
            exact h
          · rw [if_neg h] at hc
            rcases List.mem_cons.mp hc with rfl | hc'
            · simp only [List.length_take]
              exact Nat.min_le_left _ _
            · exact ih _ c hc'

theorem chunkAux_cons_head {α : Type} (size step fuel : Nat) (t : α) (rest : List α) :
    ∃ r, chunkAux size step (fuel + 1) (t :: rest) = (t :: rest).take size :: r := by
  simp only [chunkAux]
  by_cases h : (t :: rest).length ≤ size
  · exact ⟨[], by rw [if_pos h, List.take_of_length_le h]⟩
  · exact ⟨_, by rw [if_neg h]⟩

theorem chunkAux_chain {α : Type} (size ov : Nat) (hov : ov < size) :
    ∀ (fuel : Nat) (body : List α),
      List.Chain' (fun c₁ c₂ => c₁.length = size ∧ ov ≤ c₂.length ∧
        c₁.drop (size - ov) = c₂.take ov) (chunkAux size (size - ov) fuel body) := by
  intro fuel
  induction fuel with
  | zero => intro body; simp [chunkAux]
  | succ fuel ih =>
      intro body
      cases body with
      | nil => simp [chunkAux]
      | cons t rest =>
          simp only [chunkAux]
          by_cases h : (t :: rest).length ≤ size
          · rw [if_pos h]; exact List.chain'_singleton _
          · rw [if_neg h]
            push_neg at h
            refine List.Chain'.cons' (ih _) ?_
            intro y hy
            rcases hD : (t :: rest).drop (size - ov) with _ | ⟨d, ds⟩
            · have hlen := congrArg List.length hD
              simp only [List.length_drop, List.length_cons, List.length_nil] at hlen
              simp only [List.length_cons] at h
              omega
            · rw [hD] at hy
              cases fuel with
              | zero => simp [chunkAux] at hy
              | succ f =>
                  obtain ⟨r, hr⟩ := chunkAux_cons_head size (size - ov) f d ds
                  rw [hr] at hy
                  simp only [List.head?_cons, Option.mem_def, Option.some.injEq] at hy
                  subst hy
                  have hdlen : (d :: ds).length = (t :: rest).length - (size - ov) := by
                    rw [← hD, List.length_drop]
                  refine ⟨?_, ?_, ?_⟩
                  · simp only [List.length_take]
                    simp only [List.length_cons] at h ⊢
                    omega
                  · simp only [List.length_take]
                    simp only [List.length_cons] at h hdlen ⊢
                    omega
                  · rw [List.drop_take, List.take_take, hD]
                    congr 1
                    simp only [List.length_cons] at h
                    omega

theorem chunkAux_cover {α : Type} (size ov : Nat) (hov : ov < size) :
    ∀ (fuel : Nat) (body : List α), body.length ≤ fuel →
      (chunkAux size (size - ov) fuel body = [] → body = []) ∧
      (∀ c r, chunkAux size (size - ov) fuel body = c :: r →
        body = c ++ (r.map (fun d => List.drop ov d)).flatten) := by
  intro fuel
  induction fuel with
  | zero =>
      intro body hlen
      have hb : body = [] := List.length_eq_zero.mp (Nat.le_zero.mp hlen)
      subst hb
      exact ⟨fun _ => rfl, fun c r hcr => by simp [chunkAux] at hcr⟩
  | succ fuel ih =>
      intro body hlen
      cases body with
      | nil => exact ⟨fun _ => rfl, fun c r hcr => by simp [chunkAux] at hcr⟩
      | cons t rest =>
          constructor
          · intro hnil
            simp only [chunkAux] at hnil
            by_cases hle : (t :: rest).length ≤ size
            · rw [if_pos hle] at hnil; simp at hnil
            · rw [if_neg hle] at hnil; simp at hnil
          · intro c r hcr
            simp only [chunkAux] at hcr
            by_cases hle : (t :: rest).length ≤ size
            · rw [if_pos hle] at hcr
              injection hcr with hc hr
              subst hc
              rw [← hr]
              simp
            · rw [if_neg hle] at hcr
              push_neg at hle
              rcases hD : (t :: rest).drop (size - ov) with _ | ⟨d, ds⟩
              · have hlen' := congrArg List.length hD
                simp only [List.length_drop, List.length_cons, List.length_nil] at hlen'
                simp only [List.length_cons] at hle
                omega
              · rw [hD] at hcr
                have hdlen : (d :: ds).length = (t :: rest).length - (size - ov) := by
                  rw [← hD, List.length_drop]
                cases fuel with
                | zero =>
                    simp only [List.length_cons] at hdlen hle hlen
                    omega
                | succ f =>
                    obtain ⟨r', hr'⟩ := chunkAux_cons_head size (size - ov) f d ds
                    have hcov := (ih (d :: ds) (by
                      simp only [List.length_cons] at hdlen hle hlen ⊢
                      omega)).2 ((d :: ds).take size) r' hr'
                    rw [hr'] at hcr
                    injection hcr with hc hr
                    subst hc
                    rw [← hr]
                    rw [List.map_cons, List.flatten_cons]
                    have hJ : (d :: ds).drop ov =
                        ((d :: ds).take size).drop ov ++
                          (r'.map (fun x => List.drop ov x)).flatten := by
                      conv_lhs => rw [hcov]
                      rw [List.drop_append_of_le_length]
                      simp only [List.length_take]
                      simp only [List.length_cons] at hdlen hle ⊢
                      omega
                    have hdrop : (t :: rest).drop size = (d :: ds).drop ov := by
                      rw [← hD, List.drop_drop]
                      congr 1
                      omega
                    calc t :: rest
                        = (t :: rest).take size ++ (t :: rest).drop size :=
                          (List.take_append_drop size (t :: rest)).symm
                      _ = (t :: rest).take size ++ (d :: ds).drop ov := by rw [hdrop]
                      _ = (t :: rest).take size ++
                            (((d :: ds).take size).drop ov ++
                              (r'.map (fun x => List.drop ov x)).flatten) := by rw [hJ]

/-- C4: with any configuration where the overlap is smaller than the chunk
size (as in the notebook, 400 < 800), the Chunker satisfies its contract on
every Document body: every Passage holds at most `size` tokens, consecutive
Passages overlap by exactly `ov` tokens, and the Passages cover the full
body. -/
theorem C4_chunker_contract (α : Type) (size ov : Nat) (hov : ov < size)
    (body : List α) : chunkSpec size ov body (chunker size ov body) := by
  unfold chunkSpec
  refine ⟨?_, ?_, ?_, ?_⟩
  · exact fun c hc => chunkAux_length_le size (size - ov) body.length body c hc
  · exact chunkAux_chain size ov hov body.length body
  · exact (chunkAux_cover size ov hov body.length body (Nat.le_refl _)).1
  · exact (chunkAux_cover size ov hov body.length body (Nat.le_refl _)).2

/-- Witness for C4 at a concrete configuration and body. -/
theorem C4_chunker_contract_witness :
    1 < 3 ∧ chunkSpec 3 1 [0, 1, 2, 3, 4] (chunker 3 1 ([0, 1, 2, 3, 4] : List Nat)) :=
  ⟨by decide, C4_chunker_contract Nat 3 1 (by decide) [0, 1, 2, 3, 4]⟩

/-- C5 (amended): a non-empty Document body shorter than the configured chunk
size yields exactly one Passage, whose text is the whole body. -/
theorem C5_short_body (α : Type) (size ov : Nat) (body : List α)
    (hne : body ≠ []) (hlt : body.length < size) :
    chunker size ov body = [body] := by
  cases body with
  | nil => exact absurd rfl hne
  | cons t rest =>
      show chunkAux size (size - ov) (t :: rest).length (t :: rest) = [t :: rest]
      simp only [List.length_cons, chunkAux]
      rw [if_pos]
      exact Nat.le_of_lt (by simpa using hlt)

/-- C5 counterexample: the empty body is shorter than the configured chunk
size 800, yet the notebook's configured splitter yields zero Passages rather
than exactly one Passage containing the whole body. -/
theorem C5_empty_body_counterexample :
    ([] : List Nat).length < 800 ∧ text_splitter ([] : List Nat) = [] ∧
      text_splitter ([] : List Nat) ≠ [[]] :=
  ⟨by decide, rfl, by decide⟩

/-- Witness for C5 at a concrete non-empty short body. -/
theorem C5_short_body_witness :
    (([7, 8] : List Nat) ≠ []) ∧ ([7, 8] : List Nat).length < 800 ∧
      chunker 800 400 ([7, 8] : List Nat) = [[7, 8]] :=
  ⟨by decide, by decide, C5_short_body Nat 800 400 [7, 8] (by decide) (by decide)⟩

/-- C8: an empty Document body yields an empty sequence of Passages, and the
splitting function is total, so no error is raised. -/
theorem C8_empty_body (α : Type) (size ov : Nat) :
    chunker size ov ([] : List α) = [] := rfl

/-- Witness for C8 at the notebook's configured sizes. -/
theorem C8_empty_body_witness : chunker 800 400 ([] : List Nat) = [] :=
  C8_empty_body Nat 800 400

/-! ## Dedup and sort lemmas -/

theorem le_maxScoreFrom (p : Nat) (sc : Int) (l : List RetrievalResult) :
    sc ≤ maxScoreFrom p sc l := by
  induction l with
  | nil => exact le_refl _
  | cons s rest ih =>
      simp only [maxScoreFrom]
      by_cases h : s.passage = p
      · rw [if_pos h]; exact le_trans ih (le_max_right _ _)
      · rw [if_neg h]; exact ih

theorem score_le_maxScoreFrom (p : Nat) (sc : Int) (l : List RetrievalResult)
    (s : RetrievalResult) (hs : s ∈ l) (hp : s.passage = p) :
    s.score ≤ maxScoreFrom p sc l := by
  induction l with
  | nil => cases hs
  | cons t rest ih =>
      simp only [maxScoreFrom]
      rcases List.mem_cons.mp hs with rfl | hmem
      · rw [if_pos hp]; exact le_max_left _ _
      · by_cases h : t.passage = p
        · rw [if_pos h]; exact le_trans (ih hmem) (le_max_right _ _)
        · rw [if_neg h]; exact ih hmem

theorem maxScoreFrom_attained (p : Nat) (sc : Int) (l : List RetrievalResult) :
    maxScoreFrom p sc l = sc ∨
      ∃ s ∈ l, s.passage = p ∧ s.score = maxScoreFrom p sc l := by
  induction l with
  | nil => exact Or.inl rfl
  | cons t rest ih =>
      simp only [maxScoreFrom]
      by_cases h : t.passage = p
      · rw [if_pos h]
        rcases max_choice t.score (maxScoreFrom p sc rest) with hmax | hmax
        · exact Or.inr ⟨t, List.mem_cons_self t rest, h, hmax.symm⟩
        · rw [hmax]
          rcases ih with h1 | ⟨s, hsmem, hsp, hss⟩
          · exact Or.inl h1
          · exact Or.inr ⟨s, List.mem_cons_of_mem t hsmem, hsp, hss⟩
      · rw [if_neg h]
        rcases ih with h1 | ⟨s, hsmem, hsp, hss⟩
        · exact Or.inl h1
        · exact Or.inr ⟨s, List.mem_cons_of_mem t hsmem, hsp, hss⟩

theorem maxScoreFrom_of_absent (p : Nat) (sc : Int) (l : List RetrievalResult)
    (h : ∀ s ∈ l, s.passage ≠ p) : maxScoreFrom p sc l = sc := by
  induction l with
  | nil => rfl
  | cons t rest ih =>
      simp only [maxScoreFrom]
      rw [if_neg (h t (List.mem_cons_self t rest))]
      exact ih (fun s hs => h s (List.mem_cons_of_mem t hs))

theorem dedupAux_isMax (fuel : Nat) :
    ∀ (l : List RetrievalResult), ∀ r ∈ dedupAux fuel l,
      (∃ s ∈ l, s.passage = r.passage ∧ s.score = r.score) ∧
      (∀ s ∈ l, s.passage = r.passage → s.score ≤ r.score) := by
  induction fuel with
  | zero => intro l r hr; simp [dedupAux] at hr
  | succ fuel ih =>
      intro l r hr
      cases l with
      | nil => simp [dedupAux] at hr
      | cons t rest =>
          simp only [dedupAux] at hr
          rcases List.mem_cons.mp hr with rfl | hmem
          · constructor
            · rcases maxScoreFrom_attained t.passage t.score rest with hm | hfound
              · exact ⟨t, List.mem_cons_self t rest, rfl, hm.symm⟩
              · obtain ⟨s, hsmem, hsp, hss⟩ := hfound
                exact ⟨s, List.mem_cons_of_mem t hsmem, hsp, hss⟩
            · intro s hs hsp
              rcases List.mem_cons.mp hs with rfl | hsmem
              · exact le_maxScoreFrom _ _ _
              · exact score_le_maxScoreFrom _ _ _ s hsmem hsp
          · obtain ⟨⟨s₀, hs₀mem, hs₀p, hs₀s⟩, hbound⟩ :=
              ih (rest.filter fun s => s.passage ≠ t.passage) r hmem
            have hs₀rest : s₀ ∈ rest := (List.mem_filter.mp hs₀mem).1
            have hs₀ne : s₀.passage ≠ t.passage := by
              have hfil := (List.mem_filter.mp hs₀mem).2
              simpa using hfil
            have hrp : r.passage ≠ t.passage := hs₀p ▸ hs₀ne
            constructor
            · exact ⟨s₀, List.mem_cons_of_mem t hs₀rest, hs₀p, hs₀s⟩
            · intro s hs hsp
              rcases List.mem_cons.mp hs with rfl | hsmem
              · exact absurd hsp.symm hrp
              · refine hbound s (List.mem_filter.mpr ⟨hsmem, ?_⟩) hsp
                simp only [decide_eq_true_eq]
                rw [hsp]
                exact hrp

theorem dedupAux_nodup (fuel : Nat) :
    ∀ l : List RetrievalResult,
      ((dedupAux fuel l).map (fun r => r.passage)).Nodup := by
  induction fuel with
  | zero => intro l; simp [dedupAux]
  | succ fuel ih =>
      intro l
      cases l with
      | nil => simp [dedupAux]
      | cons t rest =>
          simp only [dedupAux, List.map_cons, List.nodup_cons]
          refine ⟨?_, ih _⟩
          intro hmem
          rw [List.mem_map] at hmem
          obtain ⟨r, hr, hrp⟩ := hmem
          obtain ⟨s, hsmem, hsp, _⟩ := (dedupAux_isMax fuel _ r hr).1
          have hfil := (List.mem_filter.mp hsmem).2
          simp only [decide_eq_true_eq] at hfil
          exact hfil (hsp.trans hrp)

theorem dedupAux_eq_self (fuel : Nat) :
    ∀ l : List RetrievalResult, l.length ≤ fuel →
      (l.map (fun r => r.passage)).Nodup → dedupAux fuel l = l := by
  induction fuel with
  | zero =>
      intro l hlen _
      have hnil : l = [] := List.length_eq_zero.mp (Nat.le_zero.mp hlen)
      subst hnil
      rfl
  | succ fuel ih =>
      intro l hlen hnodup
      cases l with
      | nil => rfl
      | cons t rest =>
          simp only [List.map_cons, List.nodup_cons] at hnodup
          have habsent : ∀ s ∈ rest, s.passage ≠ t.passage := by
            intro s hs hc
            exact hnodup.1 (List.mem_map.mpr ⟨s, hs, hc⟩)
          simp only [dedupAux]
          rw [maxScoreFrom_of_absent _ _ _ habsent,
            List.filter_eq_self.mpr (fun s hs => by
              simp only [decide_eq_true_eq]
              exact habsent s hs),
            ih rest (by simp only [List.length_cons] at hlen; omega) hnodup.2]

theorem insertDesc_perm (r : RetrievalResult) (l : List RetrievalResult) :
    (insertDesc r l).Perm (r :: l) := by
  induction l with
  | nil => exact List.Perm.refl _
  | cons s rest ih =>
      simp only [insertDesc]
      by_cases h : s.score ≤ r.score
      · rw [if_pos h]
      · rw [if_neg h]
        exact (ih.cons s).trans (List.Perm.swap r s rest)

theorem sortDesc_perm (l : List RetrievalResult) : (sortDesc l).Perm l := by
  induction l with
  | nil => exact List.Perm.refl _
  | cons r rest ih =>
      exact (insertDesc_perm r (sortDesc rest)).trans (ih.cons r)

theorem insertDesc_sorted (r : RetrievalResult) (l : List RetrievalResult)
    (h : List.Pairwise (fun a b => b.score ≤ a.score) l) :
    List.Pairwise (fun a b => b.score ≤ a.score) (insertDesc r l) := by
  induction l with
  | nil => simp [insertDesc]
  | cons s rest ih =>
      simp only [insertDesc]
      by_cases hs : s.score ≤ r.score
      · rw [if_pos hs]
        refine List.Pairwise.cons ?_ h
        intro b hb
        rcases List.mem_cons.mp hb with rfl | hbmem
        · exact hs
        · exact le_trans ((List.pairwise_cons.mp h).1 b hbmem) hs
      · rw [if_neg hs]
        refine List.Pairwise.cons ?_ (ih (List.pairwise_cons.mp h).2)
        intro b hb
        rcases List.mem_cons.mp ((insertDesc_perm r rest).mem_iff.mp hb) with rfl | hbmem
        · exact le_of_lt (lt_of_not_le hs)
        · exact (List.pairwise_cons.mp h).1 b hbmem

theorem sortDesc_sorted (l : List RetrievalResult) :
    List.Pairwise (fun a b => b.score ≤ a.score) (sortDesc l) := by
  induction l with
  | nil => simp [sortDesc]
  | cons r rest ih => exact insertDesc_sorted r (sortDesc rest) ih

theorem sortDesc_of_sorted (l : List RetrievalResult)
    (h : List.Pairwise (fun a b => b.score ≤ a.score) l) : sortDesc l = l := by
  induction l with
  | nil => rfl
  | cons r rest ih =>
      have h2 := List.pairwise_cons.mp h
      have hstep : sortDesc (r :: rest) = insertDesc r (sortDesc rest) := rfl
      rw [hstep, ih h2.2]
      cases rest with
      | nil => rfl
      | cons s rest' =>
          simp only [insertDesc]
          rw [if_pos (h2.1 s (List.mem_cons_self s rest'))]

/-- C1: for every original Query and every set of Expanded Queries, the
merged Retrieval Results of the multi-query Retriever contain each Passage
identity at most once. -/
theorem C1_merged_results_nodup (search : String → List RetrievalResult)
    (q : String) (variants : List String) :
    ((mergeResults search (expandedQuerySet q variants)).map
      (fun r => r.passage)).Nodup := by
  have hperm := (sortDesc_perm (dedupKeepHighest
    (((expandedQuerySet q variants).map search).flatten))).map
      (fun r => r.passage)
  exact hperm.nodup_iff.mpr (dedupAux_nodup _ _)

/-- Witness for C1 at a concrete search function and query set. -/
theorem C1_merged_results_nodup_witness :
    ((mergeResults (fun _ => [⟨1, 5⟩, ⟨1, 7⟩, ⟨2, 3⟩])
      (expandedQuerySet "q" ["v"])).map (fun r => r.passage)).Nodup :=
  C1_merged_results_nodup (fun _ => [⟨1, 5⟩, ⟨1, 7⟩, ⟨2, 3⟩]) "q" ["v"]

/-- C2: when the Query Expander produces zero usable variants, the
Retriever's merged results equal the single-query search results for the
original Query — same Passages in the same order — provided the single-query
results obey the Embedding Index search contract (descending score order, no
duplicate Passage identity); the merge is a total function, so the request is
not aborted. -/
theorem C2_zero_variants_fallback (search : String → List RetrievalResult)
    (q : String)
    (hsorted : List.Pairwise (fun a b => b.score ≤ a.score) (search q))
    (hnodup : ((search q).map (fun r => r.passage)).Nodup) :
    mergeResults search (expandedQuerySet q []) = search q := by
  have hflat : ((expandedQuerySet q []).map search).flatten = search q := by
    simp [expandedQuerySet]
  rw [mergeResults, hflat, dedupKeepHighest,
    dedupAux_eq_self (search q).length (search q) (Nat.le_refl _) hnodup,
    sortDesc_of_sorted _ hsorted]

/-- Witness for C2 at a concrete search function. -/
theorem C2_zero_variants_fallback_witness :
    List.Pairwise (fun a b => b.score ≤ a.score)
      [(⟨1, 5⟩ : RetrievalResult), ⟨2, 3⟩] ∧
    (([(⟨1, 5⟩ : RetrievalResult), ⟨2, 3⟩]).map (fun r => r.passage)).Nodup ∧
    mergeResults (fun _ => [⟨1, 5⟩, ⟨2, 3⟩]) (expandedQuerySet "q" []) =
      [⟨1, 5⟩, ⟨2, 3⟩] :=
  ⟨by decide, by decide,
    C2_zero_variants_fallback (fun _ => [⟨1, 5⟩, ⟨2, 3⟩]) "q"
      (by decide) (by decide)⟩

/-- C6: the merged results are delivered in descending score order, and every
delivered entry carries the highest score seen for its Passage identity among
all Retrieval Results surfaced by the Expanded Query Set: its score is
attained by some surfaced result for that Passage and bounds all of them. -/
theorem C6_descending_highest_score (search : String → List RetrievalResult)
    (q : String) (variants : List String) :
    List.Pairwise (fun a b => b.score ≤ a.score)
      (mergeResults search (expandedQuerySet q variants)) ∧
    ∀ r ∈ mergeResults search (expandedQuerySet q variants),
      (∃ s ∈ ((expandedQuerySet q variants).map search).flatten,
        s.passage = r.passage ∧ s.score = r.score) ∧
      (∀ s ∈ ((expandedQuerySet q variants).map search).flatten,
        s.passage = r.passage → s.score ≤ r.score) := by
  constructor
  · exact sortDesc_sorted _
  · intro r hr
    exact dedupAux_isMax _ _ r ((sortDesc_perm _).mem_iff.mp hr)

/-- Witness for C6 at a concrete search function and query set. -/
theorem C6_descending_highest_score_witness :
    List.Pairwise (fun a b => b.score ≤ a.score)
      (mergeResults (fun _ => [⟨1, 5⟩, ⟨1, 7⟩, ⟨2, 3⟩])
        (expandedQuerySet "q" ["v"])) ∧
    ∀ r ∈ mergeResults (fun _ => [⟨1, 5⟩, ⟨1, 7⟩, ⟨2, 3⟩])
        (expandedQuerySet "q" ["v"]),
      (∃ s ∈ ((expandedQuerySet "q" ["v"]).map
          (fun _ => ([⟨1, 5⟩, ⟨1, 7⟩, ⟨2, 3⟩] : List RetrievalResult))).flatten,
        s.passage = r.passage ∧ s.score = r.score) ∧
      (∀ s ∈ ((expandedQuerySet "q" ["v"]).map
          (fun _ => ([⟨1, 5⟩, ⟨1, 7⟩, ⟨2, 3⟩] : List RetrievalResult))).flatten,
        s.passage = r.passage → s.score ≤ r.score) :=
  C6_descending_highest_score (fun _ => [⟨1, 5⟩, ⟨1, 7⟩, ⟨2, 3⟩]) "q" ["v"]

/-! ## Document combination claims -/

/-- C7: for every non-empty document sequence, `_combine_documents` returns
the wrapped documents concatenated in the order received, with the separator
between consecutive wrapped documents and nothing else (no truncation, no
reordering); each wrapped document carries its `SOURCE:` label followed by
its `name` metadata. -/
theorem C7_combine_documents_concat (sep : String) :
    (∀ d, _combine_documents [d] sep = format_document d) ∧
    (∀ d d2 ds, _combine_documents (d :: d2 :: ds) sep =
      format_document d ++ sep ++ _combine_documents (d2 :: ds) sep) ∧
    (∀ d, format_document d =
      "\n    ---\n    " ++ ("SOURCE: " ++ d.name) ++
        ("\n    " ++ d.page_content ++ "\n    ---\n    ")) := by
  refine ⟨fun d => rfl, fun d d2 ds => rfl, fun d => ?_⟩
  rw [format_document,
    show ("\n    ---\n    SOURCE: " : String) = "\n    ---\n    " ++ "SOURCE: "
      by decide]
  simp only [String.append_assoc]

/-- Witness for C7 at concrete documents. -/
theorem C7_combine_documents_concat_witness :
    _combine_documents [⟨"p1", "n1"⟩] "\n\n" = format_document ⟨"p1", "n1"⟩ ∧
    _combine_documents [⟨"p1", "n1"⟩, ⟨"p2", "n2"⟩] "\n\n" =
      format_document ⟨"p1", "n1"⟩ ++ "\n\n" ++
        _combine_documents [⟨"p2", "n2"⟩] "\n\n" ∧
    format_document ⟨"p1", "n1"⟩ =
      "\n    ---\n    " ++ ("SOURCE: " ++ "n1") ++
        ("\n    " ++ "p1" ++ "\n    ---\n    ") :=
  ⟨(C7_combine_documents_concat "\n\n").1 ⟨"p1", "n1"⟩,
    (C7_combine_documents_concat "\n\n").2.1 ⟨"p1", "n1"⟩ ⟨"p2", "n2"⟩ [],
    (C7_combine_documents_concat "\n\n").2.2 ⟨"p1", "n1"⟩⟩

/-- C10 counterexample: for a single document whose body contains a blank
line, the combined output does contain the separator string `"\n\n"` (it
occurs inside the wrapped passage text), so "the result contains no
separator" is false as stated. -/
theorem C10_single_document_contains_separator :
    ∃ before after : String,
      _combine_documents [⟨"a\n\nb", "n"⟩] "\n\n" = before ++ "\n\n" ++ after :=
  ⟨"\n    ---\n    SOURCE: n\n    a", "b\n    ---\n    ", by decide⟩

/-- C10 (amended): an empty document sequence yields the empty string — the
downstream prompt's context slot is filled with an empty context and the call
does not fail — and a single document yields exactly its wrapped form, with
no separator inserted between documents (though the separator string may
still occur inside the wrapped text itself). -/
theorem C10_empty_and_single (sep : String) :
    _combine_documents [] sep = "" ∧
    ∀ d, _combine_documents [d] sep = format_document d :=
  ⟨rfl, fun _ => rfl⟩

/-- Witness for C10 at the notebook's default separator. -/
theorem C10_empty_and_single_witness :
    _combine_documents [] "\n\n" = "" ∧
    _combine_documents [⟨"x", "y"⟩] "\n\n" = format_document ⟨"x", "y"⟩ :=
  ⟨(C10_empty_and_single "\n\n").1, (C10_empty_and_single "\n\n").2 ⟨"x", "y"⟩⟩
